import Mathlib

/-!
Shallow embedding of the ZAP templating helper module
(`src-electron/generator/helper.js`-style toplevel utility helpers) and proofs
of the specified properties.

JS numbers occurring in the helpers (iteration counts, accumulator values,
loop indices) are modelled as rationals (`Rat`); `null`/`undefined` values
are modelled as `Option`; promises are modelled as handles carrying a
settlement time and an outcome, and the polling barrier is given an explicit
discrete-time semantics.
-/

set_option maxHeartbeats 1000000

/-- A pending asynchronous operation: it settles (externally) at time
`settleTime`; `ok = true` means it resolves, `ok = false` means it rejects. -/
structure TrackedPromise where
  settleTime : Nat
  ok : Bool
deriving DecidableEq, Repr

/-- An accumulator register: `value` is the ordered list of recorded values
(`none` models JS `null`/`undefined`), `sum` the list of running sums,
`currentSum` the latest running sum. Field names follow the source object
`{ value: [], sum: [], currentSum: 0 }`. -/
structure Accumulator where
  value : List (Option Rat)
  sum : List Rat
  currentSum : Rat
deriving DecidableEq, Repr

/-- The table `this.global.accumulators`, a JS object keyed by accumulator
name, modelled as an association list with unique keys. -/
def AccTable := List (String × Accumulator)
deriving instance DecidableEq for AccTable

/-- Lookup of a property in the accumulator table (JS `obj[name]`,
`undefined` when absent). -/
def lookupAcc (m : AccTable) (k : String) : Option Accumulator :=
  match m with
  | [] => none
  | (k₁, a) :: rest => if k₁ = k then some a else lookupAcc rest k

/-- Assignment of a property in the accumulator table (JS `obj[name] = a`). -/
def setAcc (m : AccTable) (k : String) (a : Accumulator) : AccTable :=
  match m with
  | [] => [(k, a)]
  | (k₁, a₁) :: rest => if k₁ = k then (k, a) :: rest else (k₁, a₁) :: setAcc rest k a

/-- The render pass's shared state `this.global`: an opaque database handle,
the pending-operation list `global.promises`, and the lazily-created
`global.accumulators` table (`none` models the `'accumulators' in this.global`
property being absent). -/
structure Global where
  db : Nat
  promises : List TrackedPromise
  accumulators : Option AccTable
deriving DecidableEq

/-- A rendering context: `global` (shared render-pass state), `parent`
back-reference, optional iteration fields `index`/`count`, and the
replay-only fields `value` (a recorded value, itself possibly null) and
`sum`. Absent fields are `none`. -/
inductive Context : Type where
  | mk : Global → Option Context → Option Rat → Option Rat →
      Option (Option Rat) → Option Rat → Context

def Context.global : Context → Global
  | .mk g _ _ _ _ _ => g

def Context.parent : Context → Option Context
  | .mk _ p _ _ _ _ => p

def Context.index : Context → Option Rat
  | .mk _ _ i _ _ _ => i

def Context.count : Context → Option Rat
  | .mk _ _ _ c _ _ => c

def Context.value : Context → Option (Option Rat)
  | .mk _ _ _ _ v _ => v

def Context.sum : Context → Option Rat
  | .mk _ _ _ _ _ s => s

/-! ## Positional block helpers

Each helper receives the block body `options.fn` as a function of the
context. In JS the fall-through path returns `undefined`; this is modelled
as `none`, and the text the engine renders for a helper result is
`renderOut` below (`undefined` renders as the empty string). -/

/-- `first`: `if (this.index != null && this.count != null && this.index == 0)
return options.fn(this)`. -/
def first (ctx : Context) (fn : Context → String) : Option String :=
  match ctx.index, ctx.count with
  | some i, some _ => if i = 0 then some (fn ctx) else none
  | _, _ => none

/-- `last`: fires iff `this.index == this.count - 1` (both fields set). -/
def last (ctx : Context) (fn : Context → String) : Option String :=
  match ctx.index, ctx.count with
  | some i, some c => if i = c - 1 then some (fn ctx) else none
  | _, _ => none

/-- `not_last`: fires iff `this.index != this.count - 1` (both fields set). -/
def not_last (ctx : Context) (fn : Context → String) : Option String :=
  match ctx.index, ctx.count with
  | some i, some c => if i ≠ c - 1 then some (fn ctx) else none
  | _, _ => none

/-- `middle`: fires iff `this.index != 0 && this.index != this.count - 1`
(both fields set). -/
def middle (ctx : Context) (fn : Context → String) : Option String :=
  match ctx.index, ctx.count with
  | some i, some c => if i ≠ 0 ∧ i ≠ c - 1 then some (fn ctx) else none
  | _, _ => none

/-- The text the engine emits for a helper return value: `undefined`
renders as the empty string. -/
def renderOut (o : Option String) : String := o.getD ""

/-! ## String helpers (`asLastWord`)

JS strings are modelled as `List Char`. `jsTrim` models `String.trim`
(strip whitespace from both ends); `jsSplitSpace` models `split(' ')`,
which always yields at least one element (`"".split(' ') == [""]`). -/

/-- The space character, the separator passed to `split`. -/
def spaceChar : Char := Char.ofNat 32

/-- Model of JS `str.trim()` on a character list. -/
def jsTrim (l : List Char) : List Char :=
  ((l.dropWhile Char.isWhitespace).reverse.dropWhile Char.isWhitespace).reverse

/-- Model of JS `str.split` applied with the single-space separator. -/
def jsSplitSpace : List Char → List (List Char)
  | [] => [[]]
  | c :: rest =>
    if c = spaceChar then [] :: jsSplitSpace rest
    else
      match jsSplitSpace rest with
      | [] => [[c]]
      | t :: ts => (c :: t) :: ts

/-- `asLastWord`: split the trimmed string on spaces; if the split is
nonempty return its last element (`strings[strings.length - 1]`), else
fall back to the trimmed string. -/
def asLastWord (str : List Char) : List Char :=
  let strings := jsSplitSpace (jsTrim str)
  if strings.length > 0 then strings.getD (strings.length - 1) []
  else jsTrim str

/-! ## Iteration helper

`iterate` loops `for (var i = 0; i < hash.count; i++)`, where `hash.count`
is an arbitrary JS number (modelled as `Rat`): the loop guard coerces it,
so a fractional or negative count is never rejected. Each step builds the
child context `{ global: this.global, parent: this, index: i, count: hash.count }`
and concatenates `options.fn(newContext)`. -/

/-- The child context built by one `iterate` step. -/
def iterChild (ctx : Context) (i : Nat) (count : Rat) : Context :=
  Context.mk ctx.global (some ctx) (some (i : Rat)) (some count) none none

/-- The `for` loop of `iterate`, entered at loop variable `i`. -/
def iterateLoop (ctx : Context) (count : Rat) (fn : Context → String) (i : Nat) : String :=
  if h : (i : Rat) < count then
    fn (iterChild ctx i count) ++ iterateLoop ctx count fn (i + 1)
  else ""
termination_by ⌈count⌉.toNat - i
decreasing_by
  have h1 : (i : Int) < ⌈count⌉ := Int.lt_ceil.mpr (by exact_mod_cast h)
  omega

/-- `iterate(options)`: run the loop from `i = 0`. -/
def iterate (ctx : Context) (count : Rat) (fn : Context → String) : String :=
  iterateLoop ctx count fn 0

/-! ## Accumulator subsystem -/

/-- `addToAccumulator(accumulator, value)`: lazily create
`this.global.accumulators` and the named register, push `value`, push the
new running sum (`value != null ? currentSum + value : currentSum`), and
update `currentSum`. Returns the updated global state. -/
def addToAccumulator (ctx : Context) (accumulator : String) (value : Option Rat) : Global :=
  let accs := ctx.global.accumulators.getD []
  let acc := (lookupAcc accs accumulator).getD ⟨[], [], 0⟩
  let lastSum := acc.currentSum
  let newSum := match value with
    | some v => lastSum + v
    | none => lastSum
  let acc' : Accumulator :=
    { value := acc.value ++ [value], sum := acc.sum ++ [newSum], currentSum := newSum }
  { ctx.global with accumulators := some (setAcc accs accumulator acc') }

/-- The child context built by one `iterateAccumulator` step
(`{ global, parent, index: i, count: length, sum: sum[i], value: value[i] }`). -/
def replayChild (ctx : Context) (acc : Accumulator) (i : Nat) : Context :=
  Context.mk ctx.global (some ctx) (some (i : Rat)) (some (acc.value.length : Rat))
    (some (acc.value.getD i none)) (some (acc.sum.getD i 0))

/-- The `for` loop of `iterateAccumulator`, entered at loop variable `i`. -/
def replayLoop (ctx : Context) (acc : Accumulator) (fn : Context → String) (i : Nat) : String :=
  if i < acc.value.length then
    fn (replayChild ctx acc i) ++ replayLoop ctx acc fn (i + 1)
  else ""
termination_by acc.value.length - i

/-- `iterateAccumulator(options)`: empty string when `this.global` has no
`accumulators` table or the named register is absent (`accumulator != null`
fails); otherwise replay the recorded entries in order. The register is
only read, never written. -/
def iterateAccumulator (ctx : Context) (accumulator : String) (fn : Context → String) : String :=
  match ctx.global.accumulators with
  | none => ""
  | some accs =>
    match lookupAcc accs accumulator with
    | none => ""
    | some acc => replayLoop ctx acc fn 0

/-! ## Ordering barrier

The barrier polls each registered promise every `pollInterval` ticks
starting at the invocation instant `t0`; a wrapped promise settles at the
first poll instant at or after the underlying promise's `settleTime`, with
the same outcome. `Promise.all` over the wrapped promises resolves (when
all resolve) at the latest wrapped resolution time, and rejects when any
wrapped promise rejects. -/

/-- `waitForSynchronousPromise(pollInterval, promise, resolve, reject)`
entered at instant `t`: if the promise is still pending (`t` before its
settlement) re-arm via `setTimeout(..., pollInterval)`, else settle the
wrapper now with the promise's outcome. Returns (settlement instant,
outcome). -/
def waitForSynchronousPromise (pollInterval : Nat) (hpi : 0 < pollInterval)
    (p : TrackedPromise) (t : Nat) : Nat × Bool :=
  if t < p.settleTime then
    waitForSynchronousPromise pollInterval hpi p (t + pollInterval)
  else (t, p.ok)
termination_by p.settleTime - t
decreasing_by omega

/-- Number of `setTimeout` re-arms performed by `waitForSynchronousPromise`. -/
def waitPollCount (pollInterval : Nat) (hpi : 0 < pollInterval)
    (p : TrackedPromise) (t : Nat) : Nat :=
  if t < p.settleTime then
    waitPollCount pollInterval hpi p (t + pollInterval) + 1
  else 0
termination_by p.settleTime - t
decreasing_by omega

/-- Outcome of the barrier's `Promise.all`: resolution at an instant, or
rejection. -/
inductive AllResult : Type where
  | resolvedAt : Nat → AllResult
  | rejected : AllResult
deriving DecidableEq, Repr

/-- Positivity of the fixed 100-tick poll interval. -/
def hundredPos : 0 < 100 := Nat.succ_pos 99

/-- `promiseToResolveAllPreviousPromises(globalPromises)` invoked at instant
`t0`: an empty list yields `Promise.resolve()` (settles at `t0`, no
polling); otherwise each promise is wrapped in a 100-tick poller and the
results are joined with `Promise.all`. -/
def promiseToResolveAllPreviousPromises (globalPromises : List TrackedPromise)
    (t0 : Nat) : AllResult :=
  if globalPromises.isEmpty then .resolvedAt t0
  else
    let ws := globalPromises.map fun p =>
      waitForSynchronousPromise 100 hundredPos p t0
    if ws.all (fun w => w.2) then
      .resolvedAt (ws.foldl (fun a w => max a w.1) t0)
    else .rejected

/-- Total number of polls performed by the barrier invoked at `t0`. -/
def barrierPollCount (globalPromises : List TrackedPromise) (t0 : Nat) : Nat :=
  if globalPromises.isEmpty then 0
  else (globalPromises.map fun p => waitPollCount 100 hundredPos p t0).sum

/-- The fresh child context built by `after` (`{ global, parent }`). -/
def afterChild (ctx : Context) : Context :=
  Context.mk ctx.global (some ctx) none none none none

/-- `after(options)` invoked at instant `t0`: wait on every promise in
`this.global.promises`, then render the body in a fresh child context.
`some (t, s)` means the body rendered to `s` at instant `t`; `none` means
the barrier failed and the body was never rendered. -/
def after (ctx : Context) (fn : Context → String) (t0 : Nat) : Option (Nat × String) :=
  match promiseToResolveAllPreviousPromises ctx.global.promises t0 with
  | .resolvedAt t => some (t, fn (afterChild ctx))
  | .rejected => none

/-! ## Async option lookup helpers

`template_options` and `template_option_with_code` build their lookup chain
from `templateUtil.ensureTemplatePackageId` and `query-package.js` query
functions; those modules are not among the sources, so the asynchronous
operation is modelled abstractly as a `TrackedPromise` argument. -/

/-- Modelled from the spec: the engine-side registration of helper-issued
asynchronous operations (`templateUtil.ensureTemplatePackageId` and the
promise bookkeeping of `template-util.js` are missing from the sources).
The spec requires each created operation to be appended to
`ctx.global.pendingOperations` at the moment it is created. -/
def registerPendingOperation (g : Global) (op : TrackedPromise) : Global :=
  { g with promises := g.promises ++ [op] }

/-- Modelled from the spec: `template_options(options)` issues its async
lookup chain (package id, then option values, then block collection) —
represented by the abstract operation `op` — and the engine registers the
operation as created. Returns the updated global state and the operation,
which is also the helper's return value. -/
def template_options (ctx : Context) (op : TrackedPromise) : Global × TrackedPromise :=
  (registerPendingOperation ctx.global op, op)

/-- Modelled from the spec: `template_option_with_code(options, key)` issues
its async lookup chain (package id, then the specific option value) —
represented by the abstract operation `op` — and the engine registers the
operation as created. -/
def template_option_with_code (ctx : Context) (op : TrackedPromise) :
    Global × TrackedPromise :=
  (registerPendingOperation ctx.global op, op)

/-! ## Specification-side definitions and concrete instances -/

/-- Concatenation of a list of rendered blocks, in list order. -/
def blocksConcat : List String → String
  | [] => ""
  | s :: rest => s ++ blocksConcat rest

/-- Sum of a list of recorded values, a `null` contributing zero. -/
def sumNonNull (vs : List (Option Rat)) : Rat :=
  (vs.map fun v => v.getD 0).sum

/-- A finite sequence of `addToAccumulator` calls against one register,
each performed in a context carrying the current global state. -/
def recordSeq (g : Global) (accumulator : String) (vs : List (Option Rat)) : Global :=
  vs.foldl (fun g v => addToAccumulator (Context.mk g none none none none none) accumulator v) g

/-- Specification-side single-record step, used to describe the register
reached by a sequence of `addToAccumulator` calls. -/
def pushRecord (acc : Accumulator) (v : Option Rat) : Accumulator :=
  { value := acc.value ++ [v]
    sum := acc.sum ++ [acc.currentSum + v.getD 0]
    currentSum := acc.currentSum + v.getD 0 }

/-- A global state with no pending operations and no accumulator table. -/
def gFresh : Global := { db := 0, promises := [], accumulators := none }

/-- A root context over `gFresh`. -/
def ctxRoot : Context := Context.mk gFresh none none none none none

/-- A block body rendering a fixed letter. -/
def bodyX : Context → String := fun _ => "X"

/-- A block body that inspects the shared global state of its context. -/
def bodyDb : Context → String := fun c => if c.global.db = 0 then "X" else "Y"

/-- A context carrying iteration position `index = 0`, `count = 1`. -/
def ctxPos01 : Context := Context.mk gFresh none (some 0) (some 1) none none

/-- A context with `index`/`count` absent. -/
def ctxNoPos : Context := Context.mk gFresh none none none none none

/-- A global state holding two pending operations that both resolve. -/
def gTwoOps : Global :=
  { db := 0, promises := [⟨250, true⟩, ⟨30, true⟩], accumulators := none }

/-- A root context over `gTwoOps`. -/
def ctxTwoOps : Context := Context.mk gTwoOps none none none none none

/-- The example accumulator value sequence `4, 8, null`. -/
def vsOffset : List (Option Rat) := [some 4, some 8, none]

/-- A populated example register (values `4, 8, null`, sums `4, 12, 12`). -/
def accEx : Accumulator := { value := [some 4, some 8, none], sum := [4, 12, 12], currentSum := 12 }

/-- A global state whose accumulator table holds `accEx` under "offset". -/
def gAcc : Global := { db := 0, promises := [], accumulators := some [("offset", accEx)] }

/-- A root context over `gAcc`. -/
def ctxAcc : Context := Context.mk gAcc none none none none none

/-- An operation already settled (successfully) at invocation time. -/
def opZero : TrackedPromise := { settleTime := 0, ok := true }

/-- The global state after `template_options` registers `opZero`. -/
def gReg : Global := (template_options ctxRoot opZero).1

/-- A context over `gReg`, as seen by a subsequent barrier. -/
def ctxReg : Context := Context.mk gReg none none none none none

/-! ## Basic lemmas -/

@[simp] theorem Context.global_mk (g p i c v s) : (Context.mk g p i c v s).global = g := rfl

@[simp] theorem Context.parent_mk (g p i c v s) : (Context.mk g p i c v s).parent = p := rfl

@[simp] theorem Context.index_mk (g p i c v s) : (Context.mk g p i c v s).index = i := rfl

@[simp] theorem Context.count_mk (g p i c v s) : (Context.mk g p i c v s).count = c := rfl

@[simp] theorem Context.value_mk (g p i c v s) : (Context.mk g p i c v s).value = v := rfl

@[simp] theorem Context.sum_mk (g p i c v s) : (Context.mk g p i c v s).sum = s := rfl

@[simp] theorem blocksConcat_nil : blocksConcat [] = "" := rfl

@[simp] theorem blocksConcat_cons (s : String) (l : List String) :
    blocksConcat (s :: l) = s ++ blocksConcat l := rfl

/-- `split` never yields an empty list. -/
theorem jsSplitSpace_ne_nil (l : List Char) : jsSplitSpace l ≠ [] := by
  induction l with
  | nil => simp [jsSplitSpace]
  | cons c rest ih =>
    rw [jsSplitSpace]
    by_cases hc : c = spaceChar
    · simp [hc]
    · simp only [hc, if_false]
      cases h : jsSplitSpace rest <;> simp

/-- Splitting a string without any space yields the singleton list. -/
theorem jsSplitSpace_no_space (l : List Char) (h : spaceChar ∉ l) :
    jsSplitSpace l = [l] := by
  induction l with
  | nil => rfl
  | cons c rest ih =>
    rw [jsSplitSpace]
    have hc : ¬ c = spaceChar := fun hq => h (hq ▸ List.mem_cons_self c rest)
    have hr : jsSplitSpace rest = [rest] := ih fun hm => h (List.mem_cons_of_mem c hm)
    simp [hc, hr]

/-- Indexing a nonempty list at `length - 1` is taking its last element. -/
theorem getD_length_sub_one {α : Type} (l : List α) (d : α) (h : l ≠ []) :
    l.getD (l.length - 1) d = l.getLastD d := by
  induction l with
  | nil => exact absurd rfl h
  | cons x rest ih =>
    cases rest with
    | nil => rfl
    | cons y t =>
      have h2 : (y :: t : List α) ≠ [] := by simp
      have := ih h2
      simp only [List.length_cons, Nat.add_sub_cancel] at this ⊢
      rw [List.getLastD_cons]
      rw [show (x :: y :: t : List α).getD (t.length + 1) d = (y :: t).getD t.length d from rfl]
      simpa using this

/-- Claim C10: `asLastWord` returns the last space-separated token of the
trimmed string; when the trimmed string contains no space it returns the
whole trimmed string; and the final fallback branch is unreachable because
splitting always yields at least one element. -/
theorem asLastWord_returns_last_token (str : List Char) :
    jsSplitSpace (jsTrim str) ≠ [] ∧
    asLastWord str = (jsSplitSpace (jsTrim str)).getLastD [] ∧
    (spaceChar ∉ jsTrim str → asLastWord str = jsTrim str) := by
  have hne : jsSplitSpace (jsTrim str) ≠ [] := jsSplitSpace_ne_nil _
  have hlen : 0 < (jsSplitSpace (jsTrim str)).length := List.length_pos.mpr hne
  have hmain : asLastWord str = (jsSplitSpace (jsTrim str)).getLastD [] := by
    rw [asLastWord]
    simp only [hlen, if_pos]
    exact getD_length_sub_one _ _ hne
  refine ⟨hne, hmain, fun hns => ?_⟩
  rw [hmain, jsSplitSpace_no_space _ hns]
  rfl

/-- Witness for C10 at a concrete input. -/
theorem asLastWord_returns_last_token_witness :
    spaceChar ∉ jsTrim ("  zap  ".toList) ∧
    asLastWord ("  zap  ".toList) = jsTrim ("  zap  ".toList) := by
  refine ⟨by decide, (asLastWord_returns_last_token _).2.2 (by decide)⟩

/-! ## Positional block helpers -/

/-- Claim C7: with `index` and `count` set to a valid position
(`0 ≤ index < count`): when `count = 1`, `first` and `last` both render the
body while `middle` and `not_last` render nothing; when `count > 1`,
exactly one of `first` (at index 0), `last` (at index `count - 1`) and
`middle` (otherwise) renders the body. -/
theorem positional_helpers_partition (ctx : Context) (fn : Context → String)
    (i n : Nat) (hi : ctx.index = some (i : Rat)) (hc : ctx.count = some (n : Rat))
    (hlt : i < n) :
    (n = 1 →
      first ctx fn = some (fn ctx) ∧ last ctx fn = some (fn ctx) ∧
      middle ctx fn = none ∧ not_last ctx fn = none) ∧
    (1 < n →
      (i = 0 → first ctx fn = some (fn ctx) ∧ last ctx fn = none ∧ middle ctx fn = none) ∧
      (i = n - 1 → last ctx fn = some (fn ctx) ∧ first ctx fn = none ∧ middle ctx fn = none) ∧
      (i ≠ 0 → i ≠ n - 1 →
        middle ctx fn = some (fn ctx) ∧ first ctx fn = none ∧ last ctx fn = none)) := by
  have hcast : ((n : Rat) - 1) = ((n - 1 : Nat) : Rat) := by
    have h1 : 1 ≤ n := Nat.one_le_of_lt (Nat.lt_of_le_of_lt (Nat.zero_le i) hlt)
    push_cast [h1]
    ring
  constructor
  · intro h1
    subst h1
    have hi0 : i = 0 := Nat.lt_one_iff.mp hlt
    subst hi0
    simp [first, last, middle, not_last, hi, hc]
  · intro h1
    refine ⟨fun h0 => ?_, fun hl => ?_, fun h0 hl => ?_⟩
    · subst h0
      have hne : (0 : Rat) ≠ (n : Rat) - 1 := by
        rw [hcast]
        exact_mod_cast (by omega : (0 : Nat) ≠ n - 1)
      simp [first, last, middle, hi, hc, hne, hne.symm]
    · subst hl
      have hne : ((n - 1 : Nat) : Rat) ≠ 0 := by
        exact_mod_cast (by omega : (n - 1 : Nat) ≠ 0)
      simp [first, last, middle, hi, hc, hcast, hne]
    · have hne0 : (i : Rat) ≠ 0 := by exact_mod_cast h0
      have hnel : (i : Rat) ≠ (n : Rat) - 1 := by
        rw [hcast]
        exact_mod_cast hl
      simp [first, last, middle, hi, hc, hne0, hnel]

/-- Witness for C7 at `index = 0`, `count = 1`. -/
theorem positional_helpers_partition_witness :
    first ctxPos01 bodyX = some "X" ∧ last ctxPos01 bodyX = some "X" ∧
    middle ctxPos01 bodyX = none ∧ not_last ctxPos01 bodyX = none := by
  have h := (positional_helpers_partition ctxPos01 bodyX 0 1 rfl rfl
    (by decide)).1 rfl
  simpa [bodyX] using h

/-- Claim C8: each positional helper is a pure total function rendering the
empty string in its negative case — in particular whenever `index` or
`count` is absent — and its only possible outputs are the rendered body or
the empty string. -/
theorem positional_helpers_total (ctx : Context) (fn : Context → String) :
    ((ctx.index = none ∨ ctx.count = none) →
      renderOut (first ctx fn) = "" ∧ renderOut (last ctx fn) = "" ∧
      renderOut (not_last ctx fn) = "" ∧ renderOut (middle ctx fn) = "") ∧
    (first ctx fn = some (fn ctx) ∨ renderOut (first ctx fn) = "") ∧
    (last ctx fn = some (fn ctx) ∨ renderOut (last ctx fn) = "") ∧
    (not_last ctx fn = some (fn ctx) ∨ renderOut (not_last ctx fn) = "") ∧
    (middle ctx fn = some (fn ctx) ∨ renderOut (middle ctx fn) = "") := by
  obtain ⟨g, p, oi, oc, ov, os⟩ := ctx
  constructor
  · rintro (h | h)
    · simp only [Context.index_mk] at h
      subst h
      cases oc <;> simp [first, last, not_last, middle, renderOut]
    · simp only [Context.count_mk] at h
      subst h
      cases oi <;> simp [first, last, not_last, middle, renderOut]
  · cases oi with
    | none => simp [first, last, not_last, middle, renderOut]
    | some i =>
      cases oc with
      | none => simp [first, last, not_last, middle, renderOut]
      | some c =>
        refine ⟨?_, ?_, ?_, ?_⟩ <;>
          simp only [first, last, not_last, middle, Context.index_mk, Context.count_mk] <;>
          split <;> simp [renderOut]

/-- Witness for C8: with `index`/`count` absent all four helpers render
nothing. -/
theorem positional_helpers_total_witness :
    renderOut (first ctxNoPos bodyX) = "" ∧ renderOut (last ctxNoPos bodyX) = "" ∧
    renderOut (not_last ctxNoPos bodyX) = "" ∧ renderOut (middle ctxNoPos bodyX) = "" :=
  (positional_helpers_total ctxNoPos bodyX).1 (Or.inl rfl)

/-! ## Iteration helper -/

/-- The loop guard `i < hash.count` holds exactly for the naturals below the
(clamped) ceiling of the count. -/
theorem iterate_guard_iff (count : Rat) (i : Nat) :
    ((i : Rat) < count) ↔ i < (⌈count⌉).toNat := by
  constructor
  · intro h
    have h1 : (i : Int) < ⌈count⌉ := Int.lt_ceil.mpr (by exact_mod_cast h)
    omega
  · intro h
    have h1 : (i : Int) < ⌈count⌉ := by omega
    have h2 : ((i : Int) : Rat) < count := Int.lt_ceil.mp h1
    exact_mod_cast h2

/-- Unrolling of the `iterate` loop into a concatenation of blocks. -/
theorem iterateLoop_eq_blocks (ctx : Context) (count : Rat) (fn : Context → String) :
    ∀ i, iterateLoop ctx count fn i =
      blocksConcat ((List.range' i ((⌈count⌉).toNat - i)).map
        fun j => fn (iterChild ctx j count)) := by
  intro i
  generalize hk : (⌈count⌉).toNat - i = k
  induction k generalizing i with
  | zero =>
    have hng : ¬ ((i : Rat) < count) := by
      rw [iterate_guard_iff]
      omega
    rw [iterateLoop, dif_neg hng, List.range'_zero]
    rfl
  | succ k ih =>
    have hik : i < (⌈count⌉).toNat := by omega
    have hg : (i : Rat) < count := (iterate_guard_iff count i).mpr hik
    rw [iterateLoop, dif_pos hg, List.range'_succ, List.map_cons, blocksConcat_cons,
      ih (i + 1) (by omega)]

/-- `iterate` renders one block per natural below the clamped ceiling of the
count, each in the child context for that index. -/
theorem iterate_blocks (ctx : Context) (count : Rat) (fn : Context → String) :
    iterate ctx count fn =
      blocksConcat ((List.range (⌈count⌉).toNat).map fun j => fn (iterChild ctx j count)) := by
  rw [iterate, iterateLoop_eq_blocks, Nat.sub_zero, List.range_eq_range']

/-- Claim C6: for a non-negative integer count `n`, `iterate` renders
exactly `n` concatenated body blocks in index order, the `i`-th in a child
context with `index = i` and `count = n`; for `n = 0` the output is empty. -/
theorem iterate_nat_count (ctx : Context) (n : Nat) (fn : Context → String) :
    iterate ctx (n : Rat) fn =
      blocksConcat ((List.range n).map fun (i : Nat) =>
        fn (Context.mk ctx.global (some ctx) (some (i : Rat)) (some (n : Rat)) none none)) ∧
    (n = 0 → iterate ctx (n : Rat) fn = "") := by
  have hceil : (⌈(n : Rat)⌉).toNat = n := by
    rw [Int.ceil_natCast]
    omega
  have hmain : iterate ctx (n : Rat) fn =
      blocksConcat ((List.range n).map fun (i : Nat) =>
        fn (Context.mk ctx.global (some ctx) (some (i : Rat)) (some (n : Rat)) none none)) := by
    rw [iterate_blocks, hceil]
    rfl
  refine ⟨hmain, fun h => ?_⟩
  rw [hmain, h]
  rfl

/-- Witness for C6 at `n = 0` (empty output) on a concrete context. -/
theorem iterate_nat_count_witness : iterate ctxRoot ((0 : Nat) : Rat) bodyX = "" :=
  (iterate_nat_count ctxRoot 0 bodyX).2 rfl

/-- Counterexample to claim C3 as stated: a fractional count is not
rejected with a configuration error; the loop silently coerces it,
rendering three blocks for `count = 5/2` and zero blocks for a negative
count. -/
theorem iterate_fractional_count_counterexample :
    iterate ctxRoot ((5 : Rat) / 2) bodyX = "XXX" ∧
    iterate ctxRoot (-3 : Rat) bodyX = "" := by
  constructor
  · have hc : (⌈(5 : Rat) / 2⌉ : Int) = 3 := by
      rw [Int.ceil_eq_iff] <;> norm_num
    have h3 : (⌈(5 : Rat) / 2⌉).toNat = 3 := by
      rw [hc]
      rfl
    rw [iterate_blocks, h3]
    rfl
  · have hc : (⌈(-3 : Rat)⌉ : Int) = -3 := by
      rw [Int.ceil_eq_iff] <;> norm_num
    have h0 : (⌈(-3 : Rat)⌉).toNat = 0 := by
      rw [hc]
      rfl
    rw [iterate_blocks, h0]
    rfl

/-- Claim C3 (amended): `iterate` performs no validation of `count`; the
loop guard silently coerces any numeric count, rendering one block per
natural below `⌈count⌉` (so three blocks for `count = 5/2`, none for a
negative count) and never reporting a configuration error. -/
theorem iterate_count_silently_coerced (ctx : Context) (count : Rat) (fn : Context → String) :
    iterate ctx count fn =
      blocksConcat ((List.range (⌈count⌉).toNat).map fun i => fn (iterChild ctx i count)) :=
  iterate_blocks ctx count fn

/-! ## Accumulator subsystem -/

theorem sumNonNull_nil : sumNonNull [] = 0 := rfl

theorem sumNonNull_cons (v : Option Rat) (vs : List (Option Rat)) :
    sumNonNull (v :: vs) = v.getD 0 + sumNonNull vs := by
  simp [sumNonNull]

/-- Looking up the key just assigned yields the assigned register. -/
theorem lookupAcc_setAcc_self (m : AccTable) (k : String) (a : Accumulator) :
    lookupAcc (setAcc m k a) k = some a := by
  induction m with
  | nil => simp [setAcc, lookupAcc]
  | cons e rest ih =>
    obtain ⟨k₁, a₁⟩ := e
    by_cases h : k₁ = k
    · simp [setAcc, lookupAcc, h]
    · simp only [setAcc, lookupAcc, h, if_false]
      exact ih

/-- One `addToAccumulator` call updates the table by pushing onto the
current (or freshly created) register. -/
theorem addToAccumulator_accumulators (ctx : Context) (name : String) (v : Option Rat) :
    (addToAccumulator ctx name v).accumulators =
      some (setAcc (ctx.global.accumulators.getD []) name
        (pushRecord ((lookupAcc (ctx.global.accumulators.getD []) name).getD
          ⟨[], [], 0⟩) v)) := by
  cases v with
  | none => simp [addToAccumulator, pushRecord]
  | some x => simp [addToAccumulator, pushRecord]

/-- Other fields of the global state are untouched by `addToAccumulator`. -/
theorem addToAccumulator_keeps (ctx : Context) (name : String) (v : Option Rat) :
    (addToAccumulator ctx name v).db = ctx.global.db ∧
    (addToAccumulator ctx name v).promises = ctx.global.promises := by
  constructor <;> rfl

theorem recordSeq_nil (g : Global) (name : String) : recordSeq g name [] = g := rfl

theorem recordSeq_cons (g : Global) (name : String) (v : Option Rat) (vs : List (Option Rat)) :
    recordSeq g name (v :: vs) =
      recordSeq (addToAccumulator (Context.mk g none none none none none) name v) name vs := rfl

/-- A record sequence against an existing register folds `pushRecord` over it. -/
theorem recordSeq_lookup (name : String) :
    ∀ (vs : List (Option Rat)) (g : Global) (acc : Accumulator),
      lookupAcc (g.accumulators.getD []) name = some acc →
      lookupAcc ((recordSeq g name vs).accumulators.getD []) name =
        some (vs.foldl pushRecord acc) := by
  intro vs
  induction vs with
  | nil => intro g acc h; simpa [recordSeq_nil] using h
  | cons v vs ih =>
    intro g acc h
    rw [recordSeq_cons, List.foldl_cons]
    apply ih
    rw [addToAccumulator_accumulators]
    simp only [Context.global_mk, h, Option.getD_some]
    exact lookupAcc_setAcc_self _ _ _

/-- Values recorded by a `pushRecord` fold are appended in order. -/
theorem foldl_pushRecord_value :
    ∀ (vs : List (Option Rat)) (acc : Accumulator),
      (vs.foldl pushRecord acc).value = acc.value ++ vs := by
  intro vs
  induction vs with
  | nil => intro acc; simp
  | cons v vs ih =>
    intro acc
    rw [List.foldl_cons, ih]
    simp [pushRecord]

/-- The final running sum of a `pushRecord` fold. -/
theorem foldl_pushRecord_currentSum :
    ∀ (vs : List (Option Rat)) (acc : Accumulator),
      (vs.foldl pushRecord acc).currentSum = acc.currentSum + sumNonNull vs := by
  intro vs
  induction vs with
  | nil => intro acc; simp [sumNonNull_nil]
  | cons v vs ih =>
    intro acc
    rw [List.foldl_cons, ih, sumNonNull_cons]
    simp [pushRecord, add_assoc]

/-- The running-sum list of a `pushRecord` fold: one prefix sum per
recorded value. -/
theorem foldl_pushRecord_sum :
    ∀ (vs : List (Option Rat)) (acc : Accumulator),
      (vs.foldl pushRecord acc).sum = acc.sum ++
        (List.range vs.length).map
          (fun i => acc.currentSum + sumNonNull (vs.take (i + 1))) := by
  intro vs
  induction vs with
  | nil => intro acc; simp
  | cons v vs ih =>
    intro acc
    rw [List.foldl_cons, ih]
    have hmap : List.map (fun i => acc.currentSum + sumNonNull ((v :: vs).take (i + 1)))
          (List.range (vs.length + 1)) =
        (acc.currentSum + v.getD 0) ::
          List.map (fun i => (pushRecord acc v).currentSum + sumNonNull (vs.take (i + 1)))
            (List.range vs.length) := by
      rw [List.range_succ_eq_map, List.map_cons, List.map_map]
      congr 1
      · simp [sumNonNull_cons, sumNonNull_nil]
      · apply List.map_congr_left
        intro i _
        simp only [Function.comp_apply, Nat.succ_eq_add_one, List.take_succ_cons,
          sumNonNull_cons, pushRecord]
        ring
    rw [show (v :: vs).length = vs.length + 1 from rfl, hmap]
    simp [pushRecord, List.append_assoc]

/-- Claim C4: after a finite sequence of `addToAccumulator` calls with
values `v0..vn` on one named register (created lazily on the first call),
the register holds the values in insertion order, its `i`-th running sum is
the sum of the non-null values among `v0..vi`, and `currentSum` is the last
running sum. -/
theorem addToAccumulator_running_sums (g : Global) (name : String)
    (vs : List (Option Rat))
    (h : lookupAcc (g.accumulators.getD []) name = none) :
    (vs = [] → lookupAcc ((recordSeq g name vs).accumulators.getD []) name = none) ∧
    (vs ≠ [] → ∃ acc,
      lookupAcc ((recordSeq g name vs).accumulators.getD []) name = some acc ∧
      acc.value = vs ∧
      acc.sum = (List.range vs.length).map (fun i => sumNonNull (vs.take (i + 1))) ∧
      acc.currentSum = sumNonNull vs ∧
      acc.currentSum = acc.sum.getLastD 0) := by
  constructor
  · intro hvs
    subst hvs
    simpa [recordSeq_nil] using h
  · intro hvs
    obtain ⟨v, vs', rfl⟩ := List.exists_cons_of_ne_nil hvs
    have h1 : lookupAcc
        ((addToAccumulator (Context.mk g none none none none none) name v).accumulators.getD [])
        name = some (pushRecord ⟨[], [], 0⟩ v) := by
      rw [addToAccumulator_accumulators]
      simp only [Context.global_mk, h, Option.getD_none, Option.getD_some]
      exact lookupAcc_setAcc_self _ _ _
    have h2 := recordSeq_lookup name vs' _ _ h1
    rw [recordSeq_cons]
    refine ⟨vs'.foldl pushRecord (pushRecord ⟨[], [], 0⟩ v), h2, ?_, ?_, ?_, ?_⟩
    · rw [show vs'.foldl pushRecord (pushRecord ⟨[], [], 0⟩ v) =
        (v :: vs').foldl pushRecord ⟨[], [], 0⟩ from rfl]
      rw [foldl_pushRecord_value]
      rfl
    · rw [show vs'.foldl pushRecord (pushRecord ⟨[], [], 0⟩ v) =
        (v :: vs').foldl pushRecord ⟨[], [], 0⟩ from rfl]
      rw [foldl_pushRecord_sum]
      simp
    · rw [show vs'.foldl pushRecord (pushRecord ⟨[], [], 0⟩ v) =
        (v :: vs').foldl pushRecord ⟨[], [], 0⟩ from rfl]
      rw [foldl_pushRecord_currentSum]
      simp
    · rw [show vs'.foldl pushRecord (pushRecord ⟨[], [], 0⟩ v) =
        (v :: vs').foldl pushRecord ⟨[], [], 0⟩ from rfl]
      rw [foldl_pushRecord_currentSum, foldl_pushRecord_sum]
      rw [show (v :: vs').length = vs'.length + 1 from rfl, List.range_succ, List.map_append]
      simp only [List.map_cons, List.map_nil, List.nil_append, List.getLastD_concat]
      rw [List.take_succ_cons, List.take_length]

/-- Witness for C4: recording `4, 8, null` yields values in order, running
sums `4, 12, 12`, and `currentSum = 12`. -/
theorem addToAccumulator_running_sums_witness :
    ∃ acc,
      lookupAcc ((recordSeq gFresh "offset" vsOffset).accumulators.getD []) "offset" = some acc ∧
      acc.value = vsOffset ∧
      acc.sum = (List.range vsOffset.length).map (fun i => sumNonNull (vsOffset.take (i + 1))) ∧
      acc.currentSum = sumNonNull vsOffset ∧
      acc.currentSum = acc.sum.getLastD 0 :=
  (addToAccumulator_running_sums gFresh "offset" vsOffset rfl).2 (by decide)

/-- Unrolling of the `iterateAccumulator` loop into a concatenation of
blocks. -/
theorem replayLoop_eq_blocks (ctx : Context) (acc : Accumulator) (fn : Context → String) :
    ∀ i, replayLoop ctx acc fn i =
      blocksConcat ((List.range' i (acc.value.length - i)).map
        fun j => fn (replayChild ctx acc j)) := by
  intro i
  generalize hk : acc.value.length - i = k
  induction k generalizing i with
  | zero =>
    rw [replayLoop, if_neg (by omega), List.range'_zero]
    rfl
  | succ k ih =>
    rw [replayLoop, if_pos (by omega), List.range'_succ, List.map_cons, blocksConcat_cons,
      ih (i + 1) (by omega)]

/-- Claim C5: `iterateAccumulator` renders the empty string when the
accumulator table or the named register is absent; otherwise it renders one
block per recorded value, in recorded order, the `i`-th in a child context
with `index = i`, `count` = number of recorded values, `value` = the `i`-th
recorded value and `sum` = the `i`-th running sum; the register itself is
only read, so replays from the same register state are identical. -/
theorem iterateAccumulator_replay (ctx : Context) (name : String) (fn : Context → String) :
    (ctx.global.accumulators = none → iterateAccumulator ctx name fn = "") ∧
    (∀ accs, ctx.global.accumulators = some accs → lookupAcc accs name = none →
      iterateAccumulator ctx name fn = "") ∧
    (∀ accs acc, ctx.global.accumulators = some accs → lookupAcc accs name = some acc →
      iterateAccumulator ctx name fn =
        blocksConcat ((List.range acc.value.length).map fun (i : Nat) =>
          fn (Context.mk ctx.global (some ctx) (some (i : Rat)) (some (acc.value.length : Rat))
            (some (acc.value.getD i none)) (some (acc.sum.getD i 0))))) := by
  refine ⟨fun h => ?_, fun accs h1 h2 => ?_, fun accs acc h1 h2 => ?_⟩
  · rw [iterateAccumulator, h]
  · rw [iterateAccumulator, h1]
    simp only [h2]
  · rw [iterateAccumulator, h1]
    simp only [h2]
    rw [replayLoop_eq_blocks, Nat.sub_zero, List.range_eq_range']
    rfl

/-- Witness for C5 on a populated register: three blocks are rendered. -/
theorem iterateAccumulator_replay_witness :
    iterateAccumulator ctxAcc "offset" bodyX = "XXX" := by
  have h := (iterateAccumulator_replay ctxAcc "offset" bodyX).2.2 [("offset", accEx)] accEx
    rfl (by rw [lookupAcc]; simp)
  rw [h]
  rfl

/-! ## Ordering barrier -/

/-- The poller settles with the promise's own outcome, never before the
promise's settlement instant, and never before the poll it was started at. -/
theorem waitForSynchronousPromise_spec (pollInterval : Nat) (hpi : 0 < pollInterval)
    (p : TrackedPromise) :
    ∀ t, (waitForSynchronousPromise pollInterval hpi p t).2 = p.ok ∧
      p.settleTime ≤ (waitForSynchronousPromise pollInterval hpi p t).1 ∧
      t ≤ (waitForSynchronousPromise pollInterval hpi p t).1 := by
  intro t
  generalize hk : p.settleTime - t = k
  induction k using Nat.strong_induction_on generalizing t with
  | _ k ih =>
    by_cases hlt : t < p.settleTime
    · rw [waitForSynchronousPromise, if_pos hlt]
      obtain ⟨h1, h2, h3⟩ := ih (p.settleTime - (t + pollInterval)) (by omega) (t + pollInterval) rfl
      exact ⟨h1, h2, le_trans (by omega) h3⟩
    · rw [waitForSynchronousPromise, if_neg hlt]
      refine ⟨rfl, ?_, ?_⟩
      · show p.settleTime ≤ t
        omega
      · show t ≤ t
        exact Nat.le_refl t

/-- The initial value and every listed instant are bounded by the running
maximum of settlement instants. -/
theorem le_foldl_max (l : List (Nat × Bool)) :
    ∀ init : Nat, init ≤ l.foldl (fun a w => max a w.1) init ∧
      ∀ w ∈ l, w.1 ≤ l.foldl (fun a w => max a w.1) init := by
  induction l with
  | nil => intro init; simp
  | cons x xs ih =>
    intro init
    rw [List.foldl_cons]
    refine ⟨le_trans (Nat.le_max_left init x.1) (ih (max init x.1)).1, ?_⟩
    intro w hw
    rcases List.mem_cons.mp hw with hw | hw
    · subst hw
      exact le_trans (Nat.le_max_right init w.1) (ih (max init w.1)).1
    · exact (ih (max init x.1)).2 w hw

/-- If the barrier's promise resolves at `t`, every snapshotted promise had
resolved (not rejected) and had settled by `t`. -/
theorem barrier_resolved_sound (ps : List TrackedPromise) (t0 t : Nat)
    (h : promiseToResolveAllPreviousPromises ps t0 = .resolvedAt t) :
    ∀ p ∈ ps, p.ok = true ∧ p.settleTime ≤ t := by
  intro p hp
  rw [promiseToResolveAllPreviousPromises] at h
  have hemp : ps.isEmpty = false := by
    cases ps with
    | nil => cases hp
    | cons a l => rfl
  rw [hemp] at h
  simp only [Bool.false_eq_true, if_false] at h
  by_cases hall :
      (ps.map fun p => waitForSynchronousPromise 100 hundredPos p t0).all fun w => w.2
  · rw [if_pos hall] at h
    have hw : waitForSynchronousPromise 100 hundredPos p t0 ∈
        ps.map fun p => waitForSynchronousPromise 100 hundredPos p t0 :=
      List.mem_map_of_mem _ hp
    have hspec := waitForSynchronousPromise_spec 100 hundredPos p t0
    have hok : p.ok = true := by
      rw [← hspec.1]
      exact List.all_eq_true.mp hall _ hw
    have hle : (waitForSynchronousPromise 100 hundredPos p t0).1 ≤ t := by
      have := (le_foldl_max (ps.map fun p => waitForSynchronousPromise 100 hundredPos p t0) t0).2
        _ hw
      cases h
      exact this
    exact ⟨hok, le_trans hspec.2.1 hle⟩
  · rw [if_neg hall] at h
    cases h

/-- If any snapshotted promise rejects, the barrier's promise rejects. -/
theorem barrier_rejected_of_failure (ps : List TrackedPromise) (t0 : Nat)
    (h : ∃ p ∈ ps, p.ok = false) :
    promiseToResolveAllPreviousPromises ps t0 = .rejected := by
  obtain ⟨p, hp, hpok⟩ := h
  rw [promiseToResolveAllPreviousPromises]
  have hemp : ps.isEmpty = false := by
    cases ps with
    | nil => cases hp
    | cons a l => rfl
  rw [hemp]
  simp only [Bool.false_eq_true, if_false]
  have hall : ¬ ((ps.map fun p => waitForSynchronousPromise 100 hundredPos p t0).all
      fun w => w.2) = true := by
    intro hall
    have hw : waitForSynchronousPromise 100 hundredPos p t0 ∈
        ps.map fun p => waitForSynchronousPromise 100 hundredPos p t0 :=
      List.mem_map_of_mem _ hp
    have := List.all_eq_true.mp hall _ hw
    rw [(waitForSynchronousPromise_spec 100 hundredPos p t0).1] at this
    rw [hpok] at this
    cases this
  rw [if_neg hall]

/-- If every snapshotted promise resolves, the barrier's promise resolves. -/
theorem barrier_resolves_of_all_ok (ps : List TrackedPromise) (t0 : Nat)
    (h : ∀ p ∈ ps, p.ok = true) :
    ∃ t, promiseToResolveAllPreviousPromises ps t0 = .resolvedAt t := by
  rw [promiseToResolveAllPreviousPromises]
  cases hps : ps.isEmpty with
  | true => exact ⟨t0, by rw [if_pos rfl]⟩
  | false =>
    simp only [Bool.false_eq_true, if_false]
    have hall : ((ps.map fun p => waitForSynchronousPromise 100 hundredPos p t0).all
        fun w => w.2) = true := by
      rw [List.all_eq_true]
      intro w hw
      obtain ⟨p, hp, rfl⟩ := List.mem_map.mp hw
      rw [(waitForSynchronousPromise_spec 100 hundredPos p t0).1]
      exact h p hp
    exact ⟨_, by rw [if_pos hall]⟩

/-- Soundness of a successful barrier: the rendered text is the body in the
fresh child context, and every snapshotted promise had resolved and settled
by the render instant. -/
theorem after_some_sound (ctx : Context) (fn : Context → String) (t0 t : Nat) (s : String)
    (h : after ctx fn t0 = some (t, s)) :
    s = fn (afterChild ctx) ∧ ∀ p ∈ ctx.global.promises, p.ok = true ∧ p.settleTime ≤ t := by
  rw [after] at h
  cases hres : promiseToResolveAllPreviousPromises ctx.global.promises t0 with
  | resolvedAt t₂ =>
    rw [hres] at h
    injection h with h
    injection h with h1 h2
    subst h1
    exact ⟨h2.symm, barrier_resolved_sound _ _ _ hres⟩
  | rejected =>
    rw [hres] at h
    cases h

/-- Claim C1: the `after` barrier renders its body only after every promise
in the pending list at invocation has settled (for any settlement order);
it fails, rendering nothing, when any of them rejected; it succeeds when all
resolve; and an empty pending list resolves immediately at the invocation
instant with no polling. -/
theorem after_barrier (ctx : Context) (fn : Context → String) (t0 : Nat) :
    (ctx.global.promises = [] →
      after ctx fn t0 = some (t0, fn (afterChild ctx)) ∧
      barrierPollCount ctx.global.promises t0 = 0) ∧
    (∀ t s, after ctx fn t0 = some (t, s) →
      s = fn (afterChild ctx) ∧ ∀ p ∈ ctx.global.promises, p.ok = true ∧ p.settleTime ≤ t) ∧
    ((∃ p ∈ ctx.global.promises, p.ok = false) → after ctx fn t0 = none) ∧
    ((∀ p ∈ ctx.global.promises, p.ok = true) →
      ∃ t, after ctx fn t0 = some (t, fn (afterChild ctx))) := by
  refine ⟨fun hnil => ?_, fun t s h => after_some_sound ctx fn t0 t s h, fun hbad => ?_,
    fun hok => ?_⟩
  · constructor
    · rw [after, hnil, promiseToResolveAllPreviousPromises]
      rfl
    · rw [hnil, barrierPollCount]
      rfl
  · rw [after, barrier_rejected_of_failure _ _ hbad]
  · obtain ⟨t, ht⟩ := barrier_resolves_of_all_ok ctx.global.promises t0 hok
    exact ⟨t, by rw [after, ht]⟩

/-- Witness for C1: a barrier over an empty pending list renders its body
immediately, without polling. -/
theorem after_barrier_witness :
    after ctxRoot bodyX 0 = some (0, "X") ∧
    barrierPollCount ctxRoot.global.promises 0 = 0 :=
  (after_barrier ctxRoot bodyX 0).1 rfl

/-- Claim C2: each option-lookup helper returns the asynchronous operation
itself and registers it in the global pending-operation list as it is
created, so that any barrier invoked over the resulting global state waits
for that operation to settle (and fails if it rejected). -/
theorem template_options_register_pending (ctx : Context) (op : TrackedPromise) :
    (template_options ctx op).2 = op ∧
    op ∈ (template_options ctx op).1.promises ∧
    (template_option_with_code ctx op).2 = op ∧
    op ∈ (template_option_with_code ctx op).1.promises ∧
    (∀ (ctx₂ : Context) (fn : Context → String) (t0 t : Nat) (s : String),
      ctx₂.global = (template_options ctx op).1 →
      after ctx₂ fn t0 = some (t, s) → op.ok = true ∧ op.settleTime ≤ t) ∧
    (∀ (ctx₂ : Context) (fn : Context → String) (t0 t : Nat) (s : String),
      ctx₂.global = (template_option_with_code ctx op).1 →
      after ctx₂ fn t0 = some (t, s) → op.ok = true ∧ op.settleTime ≤ t) := by
  have hmem : op ∈ (registerPendingOperation ctx.global op).promises := by
    rw [registerPendingOperation]
    exact List.mem_append_right _ (List.mem_singleton_self op)
  refine ⟨rfl, hmem, rfl, hmem, fun ctx₂ fn t0 t s hg h => ?_, fun ctx₂ fn t0 t s hg h => ?_⟩
  · have := (after_some_sound ctx₂ fn t0 t s h).2 op (by rw [hg]; exact hmem)
    exact this
  · have := (after_some_sound ctx₂ fn t0 t s h).2 op (by rw [hg]; exact hmem)
    exact this

/-- Witness for C2: the registered operation is seen by a later barrier on
a concrete context. -/
theorem template_options_register_pending_witness :
    opZero.ok = true ∧ opZero.settleTime ≤ 0 := by
  have hw : waitForSynchronousPromise 100 hundredPos opZero 0 = (0, true) := by
    rw [waitForSynchronousPromise, if_neg (by decide)]
    rfl
  have hres : promiseToResolveAllPreviousPromises ctxReg.global.promises 0 =
      .resolvedAt 0 := by
    show promiseToResolveAllPreviousPromises [opZero] 0 = .resolvedAt 0
    rw [promiseToResolveAllPreviousPromises]
    simp only [List.isEmpty_cons, Bool.false_eq_true, if_false, List.map_cons, List.map_nil, hw]
    rfl
  have hafter : after ctxReg bodyX 0 = some (0, bodyX (afterChild ctxReg)) := by
    rw [after, hres]
  exact (template_options_register_pending ctxRoot opZero).2.2.2.2.1 ctxReg bodyX 0 0
    (bodyX (afterChild ctxReg)) rfl hafter

/-! ## Context links of child contexts -/

/-- Claim C9: every child context built by `iterate`, `iterateAccumulator`
or `after` carries the invoking context's `global` (the same value, as the
source assigns the same reference) and the invoking context as `parent`;
consequently each of the three helpers only ever applies its body to such
contexts. -/
theorem children_share_global (ctx : Context) :
    (∀ (i : Nat) (count : Rat), (iterChild ctx i count).global = ctx.global ∧
      (iterChild ctx i count).parent = some ctx) ∧
    (∀ (acc : Accumulator) (i : Nat), (replayChild ctx acc i).global = ctx.global ∧
      (replayChild ctx acc i).parent = some ctx) ∧
    ((afterChild ctx).global = ctx.global ∧ (afterChild ctx).parent = some ctx) ∧
    (∀ fn₁ fn₂ : Context → String,
      (∀ c, c.global = ctx.global → c.parent = some ctx → fn₁ c = fn₂ c) →
      (∀ count, iterate ctx count fn₁ = iterate ctx count fn₂) ∧
      (∀ name, iterateAccumulator ctx name fn₁ = iterateAccumulator ctx name fn₂) ∧
      (∀ t0, after ctx fn₁ t0 = after ctx fn₂ t0)) := by
  refine ⟨fun i count => ⟨rfl, rfl⟩, fun acc i => ⟨rfl, rfl⟩, ⟨rfl, rfl⟩,
    fun fn₁ fn₂ hfn => ⟨fun count => ?_, fun name => ?_, fun t0 => ?_⟩⟩
  · rw [iterate_blocks, iterate_blocks]
    congr 1
    apply List.map_congr_left
    intro j _
    exact hfn _ rfl rfl
  · cases h1 : ctx.global.accumulators with
    | none => rw [iterateAccumulator, h1, iterateAccumulator, h1]
    | some accs =>
      rw [iterateAccumulator, h1, iterateAccumulator, h1]
      cases h2 : lookupAcc accs name with
      | none => simp only [h2]
      | some acc =>
        simp only [h2]
        rw [replayLoop_eq_blocks, replayLoop_eq_blocks]
        congr 1
        apply List.map_congr_left
        intro j _
        exact hfn _ rfl rfl
  · rw [after, after]
    cases hres : promiseToResolveAllPreviousPromises ctx.global.promises t0 with
    | resolvedAt t => simp only [hfn (afterChild ctx) rfl rfl]
    | rejected => rfl

/-- Witness for C9: a body reading only the shared global renders the same
as a constant body on a concrete iteration. -/
theorem children_share_global_witness :
    iterate ctxRoot 2 bodyX = iterate ctxRoot 2 bodyDb :=
  ((children_share_global ctxRoot).2.2.2 bodyX bodyDb
    (fun c h1 _ => by simp [bodyX, bodyDb, h1, ctxRoot, gFresh])).1 2
